import Mathlib

/-!
Verification development for the `notebooks` repository (four instructional
notebooks driving cuDF / cuGraph / cuML).

The repository's own code consists of:
* `src/cudf/notebooks_Apply_Operations_in_cuDF.ipynb`: numba-CUDA row kernels
  (`kernel`, `kernel1`, `kernel2`) dispatched with `apply_rows`/`apply_chunks`;
* `src/cugraph/Weighted-Jaccard.ipynb`: CSV read, vertex renumbering, and an
  argmax selection loop over a jaccard-coefficient column;
* `src/cuml/coordinate_descent_demo.ipynb` and the unnamed PCA notebook:
  `load_data` helpers, `array_equal` / `to_nparray` comparison helpers.

Embedding conventions:
* float64 values are modelled as exact rationals `ℚ`; `np.inf` (written by
  `kernel1` into positions with no history) is modelled as `none` in
  `Option ℚ`, a finite value `v` as `some v`;
* a GPU output column of length `n` is a function `ℕ → Option ℚ`; only
  indices `< n` are meaningful;
* `apply_chunks` over a boundary list `[b₀, b₁, …, b_m]` runs the kernel once
  per chunk `[b_k, b_{k+1})` with `tpb` threads; each kernel invocation is
  modelled by its per-chunk write function `Wv c e i : Option (Option ℚ)`
  (`none` = the kernel does not write global index `i`, `some v` = it writes
  `v`).  The chunks of both boundary lists used by the notebook are pairwise
  disjoint and each kernel writes only inside its own chunk for indices `< n`,
  so sequential left-to-right application of the chunks is a faithful model of
  the parallel dispatch;
* the thread-strided loops `for i in range(a + threadIdx.x, stop, blockDim.x)`
  are modelled by decidable "hit" predicates recording, for some thread id
  `tid < tpb`, that the loop of that thread reaches the local index.
-/
namespace Notebooks

/-- One `apply_chunks` kernel launch on the chunk `[c, e)`:
positions the kernel writes get the written value, other positions keep the
previous contents of the output buffer. -/
def chunkStep (Wv : ℕ → ℕ → ℕ → Option (Option ℚ)) (c e : ℕ)
    (out : ℕ → Option ℚ) : ℕ → Option ℚ :=
  fun i => (Wv c e i).getD (out i)

/-- Model of `apply_chunks` over a boundary list: the kernel is launched once per pair
of consecutive boundaries, sequentially. -/
def applyChunks (Wv : ℕ → ℕ → ℕ → Option (Option ℚ)) :
    List ℕ → (ℕ → Option ℚ) → ℕ → Option ℚ
  | b0 :: b1 :: rest, out => applyChunks Wv (b1 :: rest) (chunkStep Wv b0 b1 out)
  | _, out => out

/-- A write function is framed if it only writes inside its own chunk. -/
def Framed (Wv : ℕ → ℕ → ℕ → Option (Option ℚ)) : Prop :=
  ∀ c e i, Wv c e i ≠ none → c ≤ i ∧ i < e

/-- Number of elements of Python `range(start, stop, step)` for `step ≥ 1`. -/
def pyRangeLen (start stop step : ℕ) : ℕ := (stop - start + step - 1) / step

/-- Local indices written by kernel1's first loop
`range(tid, average_length - 1, tpb)` for some thread `tid < tpb`. -/
def hitsInfLoop (w tpb il : ℕ) : Prop :=
  ∃ tid ∈ Finset.range tpb, ∃ k ∈ Finset.range (il + 2),
    il = tid + k * tpb ∧ il < w - 1

/-- Local indices written by kernel1's second loop
`range(tid + average_length - 1, in1.size, tpb)` for some thread `tid < tpb`
(stated additively: `il = tid + w - 1 + k * tpb` becomes
`il + 1 = w + tid + k * tpb`, which is exact for `w ≥ 1`). -/
def hitsAvgLoop (w tpb s il : ℕ) : Prop :=
  ∃ tid ∈ Finset.range tpb, ∃ k ∈ Finset.range (il + 2),
    il + 1 = w + tid + k * tpb ∧ il < s

/-- Local indices written by kernel2 for some thread `tid < tpb`: the thread
must pass the early-return guard `in1.size - 2*average_length + tid + 1 ≥ 0`,
and its loop `range(in1.size - average_length + tid, in1.size, tpb)` must
reach `il` (stated additively: `il = s - w + tid + k * tpb` becomes
`il + w = s + tid + k * tpb`). -/
def hitsK2 (w tpb s il : ℕ) : Prop :=
  ∃ tid ∈ Finset.range tpb, 2 * w ≤ s + tid + 1 ∧
    ∃ k ∈ Finset.range (il + 2), il + w = s + tid + k * tpb ∧ il < s

instance (w tpb il : ℕ) : Decidable (hitsInfLoop w tpb il) := by
  unfold hitsInfLoop; infer_instance

instance (w tpb s il : ℕ) : Decidable (hitsAvgLoop w tpb s il) := by
  unfold hitsAvgLoop; infer_instance

instance (w tpb s il : ℕ) : Decidable (hitsK2 w tpb s il) := by
  unfold hitsK2; infer_instance

/-- Moving average of the window of length `w` ending at global index `i`
(`(in1[i-w+1] + ... + in1[i]) / w`), the value pandas' `rolling(w).mean()`
assigns at indices `i ≥ w - 1`. -/
def rollingMean (f : ℕ → ℚ) (w i : ℕ) : ℚ :=
  (∑ j in Finset.Ico (i + 1 - w) (i + 1), f j) / (w : ℚ)

/-- The inner summation loop of kernel1/kernel2 on the chunk starting at
global index `c`: `summ / average_length` where
`summ = Σ_{j = il-w+1}^{il} in1[j]` over local indices (`in1[j]` is the
global element `f (c + j)`). -/
def chunkWindowAvg (f : ℕ → ℚ) (w c il : ℕ) : ℚ :=
  (∑ j in Finset.Ico (il + 1 - w) (il + 1), f (c + j)) / (w : ℚ)

/-- One kernel1 launch on the chunk `[c, e)`; a global index `i` inside the
chunk is written `np.inf` if the first loop reaches local index `i - c`, and
the local moving average if the second loop does.  (If the final chunk were
shorter than `w - 1`, the first loop of the Python kernel would also step
past the end of its slice; those writes would land beyond the column's `n`
elements — out of bounds on the device — and the model, which tracks only
the column, clips them to the chunk.  Whenever every chunk has size at least
`w - 1`, as under the hypotheses of the theorems below and in the
counterexample configuration, no clipping occurs at all.) -/
def k1Write (f : ℕ → ℚ) (w tpb c e i : ℕ) : Option (Option ℚ) :=
  if c ≤ i ∧ i < e then
    if hitsInfLoop w tpb (i - c) then some none
    else if hitsAvgLoop w tpb (e - c) (i - c) then
      some (some (chunkWindowAvg f w c (i - c)))
    else none
  else none

/-- One kernel2 launch on the chunk `[c, e)` (kernel2 reads only `in1` and
writes the local moving average at the local indices its loop reaches). -/
def k2Write (f : ℕ → ℚ) (w tpb c e i : ℕ) : Option (Option ℚ) :=
  if c ≤ i ∧ i < e ∧ hitsK2 w tpb (e - c) (i - c) then
    some (some (chunkWindowAvg f w c (i - c)))
  else none

/-- Chunk boundaries of the kernel1 dispatch:
`list(range(0, data_length, trunk_size)) + [data_length]`. -/
def mortgageBounds1 (n trunk : ℕ) : List ℕ :=
  List.range' 0 (pyRangeLen 0 n trunk) trunk ++ [n]

/-- Chunk boundaries of the kernel2 dispatch:
`[0] + list(range(average_window, data_length, trunk_size)) + [data_length]`. -/
def mortgageBounds2 (n w trunk : ℕ) : List ℕ :=
  0 :: (List.range' w (pyRangeLen w n trunk) trunk ++ [n])

/-- The chunked GPU moving-average computation of the notebook: kernel1 over
the uniform chunks, then kernel2 over the shifted chunks, on an input column
`in1 = f` of length `n`. -/
def movingAverageGPU (f : ℕ → ℚ) (n w trunk tpb : ℕ) : ℕ → Option ℚ :=
  applyChunks (k2Write f w tpb) (mortgageBounds2 n w trunk)
    (applyChunks (k1Write f w tpb) (mortgageBounds1 n trunk) (fun _ => none))

/-- The reference output claimed for the pipeline: the pandas
`rolling(average_window).mean()` value at every index with full history, and
`np.inf` (modelled `none`) below `average_window - 1`. -/
def rollingRef (f : ℕ → ℚ) (w i : ℕ) : Option ℚ :=
  if w - 1 ≤ i then some (rollingMean f w i) else none

/-- Per-chunk writes of the `apply_rows` doubling kernel: every local index
`il = i - c` of the chunk receives `in1[il] * 2.0`. -/
def rowsDoubleWrite (f : ℕ → ℚ) (c e i : ℕ) : Option (Option ℚ) :=
  if c ≤ i ∧ i < e then some (some (f (c + (i - c)) * 2)) else none

/-- Local indices reached by the strided loop `range(tid, in1.size, tpb)` of
some thread `tid < tpb`. -/
def hitsStride (tpb s il : ℕ) : Prop :=
  ∃ tid ∈ Finset.range tpb, ∃ k ∈ Finset.range (il + 2),
    il = tid + k * tpb ∧ il < s

instance (tpb s il : ℕ) : Decidable (hitsStride tpb s il) := by
  unfold hitsStride; infer_instance

/-- Per-chunk writes of the strided `apply_chunks` doubling kernel. -/
def stridedDoubleWrite (f : ℕ → ℚ) (tpb c e i : ℕ) : Option (Option ℚ) :=
  if c ≤ i ∧ i < e ∧ hitsStride tpb (e - c) (i - c) then
    some (some (f (c + (i - c)) * 2))
  else none

/-- The `apply_rows` doubling dispatch over an arbitrary (library-chosen)
boundary list `bs`. -/
def applyRowsDouble (f : ℕ → ℚ) (bs : List ℕ) : ℕ → Option ℚ :=
  applyChunks (rowsDoubleWrite f) bs (fun _ => none)

/-- The `apply_chunks` doubling dispatch of the notebook (`chunks=16, tpb=8`
in the demo cell): an integer chunk specification `cs` yields the uniform
boundaries `0, cs, 2*cs, …, n`. -/
def applyChunksDouble (f : ℕ → ℚ) (n cs tpb : ℕ) : ℕ → Option ℚ :=
  applyChunks (stridedDoubleWrite f tpb) (mortgageBounds1 n cs) (fun _ => none)

/-- Sum of the first `n` entries of an output column (`out.sum()`; every
meaningful entry is `some`). -/
def outColSum (out : ℕ → Option ℚ) (n : ℕ) : ℚ :=
  ∑ i in Finset.range n, (out i).getD 0

/-- A value acceptable to `to_nparray`: an array-like of float64 entries or a
single `np.float64` scalar. -/
inductive PyValue where
  | arr (xs : List ℚ)
  | scalar (x : ℚ)
deriving DecidableEq

/-- Conversion `to_nparray`: array-likes keep their contents, a scalar becomes the
one-element array `np.array([x])`. -/
def to_nparray : PyValue → List ℚ
  | PyValue.arr xs => xs
  | PyValue.scalar x => [x]

/-- Model of `sklearn.metrics.mean_squared_error` on two equal-length vectors:
the mean of the squared elementwise differences. -/
def mean_squared_error (a b : List ℚ) : ℚ :=
  (((a.zip b).map (fun p => (p.1 - p.2) ^ 2)).sum) / ((a.zip b).length : ℚ)

/-- The default of the `threshold` parameter of `array_equal`, namely `2e-3`. -/
def array_equal_default_threshold : ℚ := 2e-3

/-- The comparison helper `array_equal(a, b, threshold, with_sign)`. -/
def array_equal (a b : PyValue) (threshold : ℚ) (with_sign : Bool) : Bool :=
  let a1 := to_nparray a
  let b1 := to_nparray b
  let a2 := if with_sign = false then a1.map (fun x => |x|) else a1
  let b2 := if with_sign = false then b1.map (fun x => |x|) else b1
  decide (mean_squared_error a2 b2 < threshold)

/-- One iteration of the selection loop. -/
def bestStep (get : ℕ → ℚ) (b i : ℕ) : ℕ :=
  if get i > get b then i else b

/-- The loop after processing `i = 0, …, n-1`, starting from `bestEdge = 0`. -/
def bestEdgeLoop (get : ℕ → ℚ) : ℕ → ℕ
  | 0 => 0
  | n + 1 => bestStep get (bestEdgeLoop get n) n

/-- The final value of `bestEdge` over the `jaccard_coeff` column `xs`. -/
def bestEdge (xs : List ℚ) : ℕ :=
  bestEdgeLoop (fun i => xs.getD i 0) xs.length

/-- The exception message of the PCA notebook's `load_data`. -/
def pcaErrorMessage : String := "Please download the required dataset or check the path"

/-- PCA `load_data`: raises `FileNotFoundError` (modelled `Except.error`) when
the cached mortgage file is absent, otherwise samples `nrows` rows and keeps
the first `ncols` columns. -/
def pcaLoadData (fileExists : Bool) (fileX : List (List ℚ)) (sampleIdxs : List ℕ)
    (ncols : ℕ) : Except String (List (List ℚ)) :=
  if fileExists then
    Except.ok (sampleIdxs.map fun r => (fileX.getD r []).take ncols)
  else
    Except.error pcaErrorMessage

/-- Which dataset the coordinate-descent `load_data` ends up using. -/
inductive DataSource where
  | mortgageFile
  | generatedRandom
deriving DecidableEq

/-- Truncation `int(nrows*0.8)`, modelled as exact `⌊nrows·8/10⌋`: the
float64 closest to `0.8` is `4/5 + 2^-52/5`, so the rounded float64 product
`nrows * 0.8` truncates to `⌊nrows·8/10⌋` for every `nrows < 2^53` (the
coordinate-descent notebook uses `nrows = 2^21`). -/
def train_rows (nrows : ℕ) : ℕ := nrows * 8 / 10

/-- The sampled feature matrix of the mortgage branch:
column 4 removed, rows `rindices`, first `ncols` columns. -/
def cdMortgageX (fileX : List (List ℚ)) (sampleIdxs : List ℕ) (ncols : ℕ) :
    List (List ℚ) :=
  sampleIdxs.map fun r => ((fileX.map fun row => row.eraseIdx 4).getD r []).take ncols

/-- The label vector of the mortgage branch: column 4 of the reduced matrix
(`y = X[:,4:5]` after deleting the original column 4), rows `rindices`. -/
def cdMortgageY (fileX : List (List ℚ)) (sampleIdxs : List ℕ) : List ℚ :=
  sampleIdxs.map fun r => ((fileX.map fun row => row.eraseIdx 4).getD r []).getD 4 0

/-- Coordinate-descent `load_data`: falls back to a `make_regression` dataset
(`genX`, `genY`) when the cached mortgage file is absent, then splits
train/test at `int(nrows*0.8)`.  The first component records which data
source was used. -/
def cdLoadData (fileExists : Bool) (fileX : List (List ℚ)) (sampleIdxs : List ℕ)
    (genX : List (List ℚ)) (genY : List ℚ) (nrows ncols : ℕ) :
    DataSource × (List (List ℚ) × List (List ℚ) × List ℚ × List ℚ) :=
  let tr := train_rows nrows
  if fileExists then
    let X := cdMortgageX fileX sampleIdxs ncols
    let y := cdMortgageY fileX sampleIdxs
    (DataSource.mortgageFile, (X.take tr, X.drop tr, y.take tr, y.drop tr))
  else
    (DataSource.generatedRandom, (genX.take tr, genX.drop tr, genY.take tr, genY.drop tr))

/-- A file operation (the `writeFile` constructor exists so that "the code
writes no files" is a statement about the traces, not about the type). -/
inductive FileOp where
  | readCsv (path : String)
  | pathExists (path : String) (result : Bool)
  | openGzipRead (path : String)
  | writeFile (path : String)
deriving DecidableEq

/-- The cached-dataset path of both `load_data` helpers. -/
def mortgagePath : String := "data/mortgage.npy.gz"

/-- The edge-list path of the weighted-Jaccard notebook. -/
def karatePath : String := "./data/karate-data.csv"

/-- File operations of the PCA notebook's `load_data` when `os.path.exists`
reports `fileExists`. -/
def pcaLoadDataTrace (fileExists : Bool) : List FileOp :=
  FileOp.pathExists mortgagePath fileExists ::
    (if fileExists then [FileOp.openGzipRead mortgagePath] else [])

/-- File operations of the coordinate-descent `load_data`. -/
def cdLoadDataTrace (fileExists : Bool) : List FileOp :=
  FileOp.pathExists mortgagePath fileExists ::
    (if fileExists then [FileOp.openGzipRead mortgagePath] else [])

/-- File operations of the weighted-Jaccard notebook (the `cudf.read_csv`
call); the cuDF apply-operations notebook performs none. -/
def jaccardTrace : List FileOp := [FileOp.readCsv karatePath]

/-- Is the operation a write? -/
def FileOp.isWrite : FileOp → Bool
  | FileOp.writeFile _ => true
  | _ => false

/-- Two's-complement wrap into the `int32` range
`[-2147483648, 2147483648) = [-2^31, 2^31)`. -/
def wrap32 (z : ℤ) : ℤ := (z + 2147483648) % 4294967296 - 2147483648

/-- The renumbering cell: returns `(src, dst, src_id, dst_id)` — the two
original columns unchanged, and the two freshly assigned columns holding the
int32 difference `v - 1`. -/
def renumberVertices (src dst : List ℤ) : List ℤ × List ℤ × List ℤ × List ℤ :=
  (src, dst, src.map (fun v => wrap32 (v - 1)), dst.map (fun v => wrap32 (v - 1)))

/-- The set of local indices the strided doubling kernel's lane `tid` writes
in a chunk of size `s` (the per-lane slice of `hitsStride`). -/
def laneWrites (tid tpb s il : ℕ) : Prop :=
  tid < tpb ∧ ∃ k ∈ Finset.range (il + 2), il = tid + k * tpb ∧ il < s

instance (tid tpb s il : ℕ) : Decidable (laneWrites tid tpb s il) := by
  unfold laneWrites; infer_instance

/-! ### Theorems -/

theorem applyChunks_congrPt (Wv : ℕ → ℕ → ℕ → Option (Option ℚ)) :
    ∀ (l : List ℕ) (out out' : ℕ → Option ℚ) (i : ℕ), out i = out' i →
      applyChunks Wv l out i = applyChunks Wv l out' i := by
  intro l
  induction l with
  | nil => intro out out' i h; exact h
  | cons b0 rest ih =>
    intro out out' i h
    cases rest with
    | nil => exact h
    | cons b1 rest' =>
      simp only [applyChunks]
      exact ih _ _ i (by simp only [chunkStep, h])

theorem applyChunks_lt_head (Wv : ℕ → ℕ → ℕ → Option (Option ℚ))
    (hfr : Framed Wv) :
    ∀ (rest : List ℕ) (b0 : ℕ) (out : ℕ → Option ℚ) (i : ℕ),
      List.Chain' (· ≤ ·) (b0 :: rest) → i < b0 →
      applyChunks Wv (b0 :: rest) out i = out i := by
  intro rest
  induction rest with
  | nil => intro b0 out i _ _; rfl
  | cons b1 rest' ih =>
    intro b0 out i hch hib
    have hb01 : b0 ≤ b1 := (List.chain'_cons.mp hch).1
    have hch' : List.Chain' (· ≤ ·) (b1 :: rest') := (List.chain'_cons.mp hch).2
    have hstep : chunkStep Wv b0 b1 out i = out i := by
      have : Wv b0 b1 i = none := by
        by_contra h
        exact absurd (hfr b0 b1 i h).1 (by omega)
      simp [chunkStep, this]
    simp only [applyChunks]
    calc applyChunks Wv (b1 :: rest') (chunkStep Wv b0 b1 out) i
        = chunkStep Wv b0 b1 out i := ih b1 _ i hch' (by omega)
      _ = out i := hstep

theorem applyChunks_drop_head (Wv : ℕ → ℕ → ℕ → Option (Option ℚ))
    (hfr : Framed Wv) (b0 b1 : ℕ) (rest : List ℕ) (out : ℕ → Option ℚ) (i : ℕ)
    (hi : b1 ≤ i) :
    applyChunks Wv (b0 :: b1 :: rest) out i = applyChunks Wv (b1 :: rest) out i := by
  have hstep : chunkStep Wv b0 b1 out i = out i := by
    have : Wv b0 b1 i = none := by
      by_contra h
      exact absurd (hfr b0 b1 i h).2 (by omega)
    simp [chunkStep, this]
  simp only [applyChunks]
  exact applyChunks_congrPt Wv (b1 :: rest) _ _ i hstep

theorem applyChunks_head_chunk (Wv : ℕ → ℕ → ℕ → Option (Option ℚ))
    (hfr : Framed Wv) (b0 b1 : ℕ) (rest : List ℕ) (out : ℕ → Option ℚ) (i : ℕ)
    (hch : List.Chain' (· ≤ ·) (b1 :: rest)) (_h0 : b0 ≤ i) (h1 : i < b1) :
    applyChunks Wv (b0 :: b1 :: rest) out i = (Wv b0 b1 i).getD (out i) := by
  simp only [applyChunks]
  calc applyChunks Wv (b1 :: rest) (chunkStep Wv b0 b1 out) i
      = chunkStep Wv b0 b1 out i := applyChunks_lt_head Wv hfr rest b1 _ i hch h1
    _ = (Wv b0 b1 i).getD (out i) := rfl

theorem pyRangeLen_upper (start stop step : ℕ) (hs : 1 ≤ step) :
    stop ≤ start + pyRangeLen start stop step * step := by
  rcases Nat.le_total stop start with h | h
  · omega
  · have h1 : stop - start ≤ pyRangeLen start stop step * step := by
      have h2 : stop - start + step - 1 <
          (stop - start + step - 1) / step * step + step :=
        Nat.lt_div_mul_add (by omega)
      unfold pyRangeLen
      omega
    omega

theorem pyRangeLen_last_lt (start stop step : ℕ) (hs : 1 ≤ step)
    (hM : 1 ≤ pyRangeLen start stop step) :
    start + (pyRangeLen start stop step - 1) * step < stop := by
  have h2 : pyRangeLen start stop step * step ≤ stop - start + step - 1 :=
    Nat.div_mul_le_self _ _
  have hd : 1 ≤ stop - start := by
    by_contra h
    have hz : stop - start = 0 := by omega
    have : pyRangeLen start stop step = 0 := by
      unfold pyRangeLen
      rw [hz]
      exact Nat.div_eq_of_lt (by omega)
    omega
  have h3 : (pyRangeLen start stop step - 1) * step ≤ stop - start - 1 := by
    have : (pyRangeLen start stop step - 1) * step + step =
        pyRangeLen start stop step * step := by
      have := Nat.succ_pred_eq_of_pos hM
      calc (pyRangeLen start stop step - 1) * step + step
          = (pyRangeLen start stop step - 1 + 1) * step := by ring
        _ = pyRangeLen start stop step * step := by rw [Nat.sub_add_cancel hM]
    omega
  omega

theorem pyRangeLen_pos (start stop step : ℕ) (hs : 1 ≤ step) (h : start < stop) :
    1 ≤ pyRangeLen start stop step := by
  unfold pyRangeLen
  have h1 : step ≤ stop - start + step - 1 := by omega
  exact Nat.one_le_div_iff (by omega) |>.mpr h1

theorem chain_range'_append (n t : ℕ) :
    ∀ (m a : ℕ), a + m * t ≤ n + t →
      List.Chain' (· ≤ ·) (List.range' a m t ++ [n]) := by
  intro m
  induction m with
  | zero => intro a _; simp
  | succ m ih =>
    intro a ha
    rw [Nat.succ_mul] at ha
    rw [List.range'_succ]
    rw [List.cons_append]
    rw [List.chain'_cons']
    refine ⟨?_, ih (a + t) (by omega)⟩
    intro y hy
    cases m with
    | zero =>
      simp at hy
      omega
    | succ m' =>
      rw [List.range'_succ] at hy
      simp at hy
      omega

/-- Locating the chunk of a uniform boundary list `range' c M trunk ++ [n]`:
for `c ≤ i < n` the value of the output at `i` is decided by the unique chunk
containing `i`, namely chunk number `(i - c) / trunk`. -/
theorem applyChunks_range' (Wv : ℕ → ℕ → ℕ → Option (Option ℚ))
    (hfr : Framed Wv) (trunk : ℕ) (htr : 1 ≤ trunk) :
    ∀ (M c : ℕ) (n : ℕ) (out : ℕ → Option ℚ) (i : ℕ),
      c ≤ i → i < n → n ≤ c + M * trunk →
      (1 ≤ M → c + (M - 1) * trunk < n) →
      applyChunks Wv (List.range' c M trunk ++ [n]) out i =
        (Wv (c + (i - c) / trunk * trunk)
            (min (c + ((i - c) / trunk + 1) * trunk) n) i).getD (out i) := by
  intro M
  induction M with
  | zero =>
    intro c n out i hci hin hn _
    omega
  | succ m ih =>
    intro c n out i hci hin hn hlast
    have hlast' : c + m * trunk < n := by
      have h := hlast (by omega)
      rwa [Nat.add_sub_cancel] at h
    rw [Nat.succ_mul] at hn
    rw [List.range'_succ, List.cons_append]
    cases m with
    | zero =>
      have hk : (i - c) / trunk = 0 := by
        apply Nat.div_eq_of_lt
        omega
      have hmin : min (c + (0 + 1) * trunk) n = n := by
        have : n ≤ c + trunk := by omega
        simp only [Nat.zero_add, Nat.one_mul]
        omega
      simp only [List.range'_zero, List.nil_append]
      rw [applyChunks_head_chunk Wv hfr c n [] out i (by simp) hci hin]
      rw [hk, hmin]
      simp
    | succ m' =>
      rw [Nat.succ_mul] at hlast' hn
      have hhead : List.range' (c + trunk) (m' + 1) trunk ++ [n] =
          (c + trunk) :: (List.range' (c + trunk + trunk) m' trunk ++ [n]) := by
        rw [List.range'_succ, List.cons_append]
      by_cases hsplit : i < c + trunk
      · have hch : List.Chain' (· ≤ ·) (List.range' (c + trunk) (m' + 1) trunk ++ [n]) := by
          apply chain_range'_append
          rw [Nat.succ_mul]
          omega
        rw [hhead]
        rw [applyChunks_head_chunk Wv hfr c (c + trunk) _ out i
          (by rw [← hhead]; exact hch) hci hsplit]
        have hk : (i - c) / trunk = 0 := Nat.div_eq_of_lt (by omega)
        have hmin : min (c + (0 + 1) * trunk) n = c + trunk := by
          simp only [Nat.zero_add, Nat.one_mul]
          omega
        rw [hk, hmin]
        simp
      · have hge : c + trunk ≤ i := by omega
        rw [hhead]
        rw [applyChunks_drop_head Wv hfr c (c + trunk) _ out i hge]
        rw [← hhead]
        have hrec := ih (c + trunk) n out i hge hin
          (by rw [Nat.succ_mul]; omega)
          (by intro _
              rw [Nat.add_sub_cancel]
              omega)
        rw [hrec]
        have hdiv : (i - c) / trunk = (i - (c + trunk)) / trunk + 1 := by
          have h1 : i - c = (i - (c + trunk)) + trunk := by omega
          rw [h1, Nat.add_div_right _ (by omega)]
        rw [hdiv]
        have e1 : c + ((i - (c + trunk)) / trunk + 1) * trunk =
            c + trunk + (i - (c + trunk)) / trunk * trunk := by ring
        have e2 : c + ((i - (c + trunk)) / trunk + 1 + 1) * trunk =
            c + trunk + ((i - (c + trunk)) / trunk + 1) * trunk := by ring
        rw [e1, e2]

/-! ### The moving-average kernels of `notebooks_Apply_Operations_in_cuDF.ipynb`

`kernel1`:
```
def kernel1(in1, out, average_length):
    for i in range(cuda.threadIdx.x, average_length-1, cuda.blockDim.x):
        out[i] = np.inf
    for i in range(cuda.threadIdx.x + average_length - 1, in1.size, cuda.blockDim.x):
        summ = 0.0
        for j in range(i - average_length + 1, i + 1):
            summ += in1[j]
        out[i] = summ / np.float64(average_length)
```
`kernel2`:
```
def kernel2(in1, out, average_length):
    if in1.size - average_length + cuda.threadIdx.x - average_length + 1 < 0:
        return
    for i in range(in1.size - average_length + cuda.threadIdx.x, in1.size, cuda.blockDim.x):
        summ = 0.0
        for j in range(i - average_length + 1, i + 1):
            summ += in1[j]
        out[i] = summ / np.float64(average_length)
```
The hit predicates below record which local indices `il` of a chunk of size
`s` are reached by some thread `tid < tpb` of the strided loops (`k` is the
loop-iteration count of that thread; `k ≤ il + 1` always holds because the
stride is positive, so bounding `k` by `il + 2` loses nothing). -/

theorem hitsInfLoop_iff (w tpb il : ℕ) (htpb : 1 ≤ tpb) :
    hitsInfLoop w tpb il ↔ il < w - 1 := by
  constructor
  · rintro ⟨tid, _, k, _, _, h⟩; exact h
  · intro h
    refine ⟨il % tpb, Finset.mem_range.mpr (Nat.mod_lt _ (by omega)), il / tpb,
      Finset.mem_range.mpr (by have := Nat.div_le_self il tpb; omega), ?_, h⟩
    have := Nat.mod_add_div' il tpb
    omega

theorem hitsAvgLoop_iff (w tpb s il : ℕ) (htpb : 1 ≤ tpb) :
    hitsAvgLoop w tpb s il ↔ w - 1 ≤ il ∧ il < s := by
  constructor
  · rintro ⟨tid, _, k, _, heq, h⟩
    exact ⟨by omega, h⟩
  · rintro ⟨h1, h2⟩
    refine ⟨(il + 1 - w) % tpb, Finset.mem_range.mpr (Nat.mod_lt _ (by omega)),
      (il + 1 - w) / tpb,
      Finset.mem_range.mpr (by have := Nat.div_le_self (il + 1 - w) tpb; omega), ?_, h2⟩
    have := Nat.mod_add_div' (il + 1 - w) tpb
    omega

theorem hitsK2_iff (w tpb s il : ℕ) (hw : 1 ≤ w) (htpb : w ≤ tpb) :
    hitsK2 w tpb s il ↔ w - 1 ≤ il ∧ s ≤ il + w ∧ il < s := by
  constructor
  · rintro ⟨tid, _, hguard, k, _, heq, h⟩
    refine ⟨by omega, by omega, h⟩
  · rintro ⟨h1, h2, h3⟩
    refine ⟨il + w - s, Finset.mem_range.mpr (by omega), by omega,
      0, Finset.mem_range.mpr (by omega), by omega, h3⟩

theorem chunkWindowAvg_eq_rollingMean (f : ℕ → ℚ) (w c il : ℕ) (h : w ≤ il + 1) :
    chunkWindowAvg f w c il = rollingMean f w (c + il) := by
  unfold chunkWindowAvg rollingMean
  congr 1
  rw [Finset.sum_Ico_eq_sum_range, Finset.sum_Ico_eq_sum_range]
  have h1 : il + 1 - (il + 1 - w) = w := by omega
  have h2 : c + il + 1 - (c + il + 1 - w) = w := by omega
  rw [h1, h2]
  apply Finset.sum_congr rfl
  intro k _
  congr 1
  omega

theorem k1Write_framed (f : ℕ → ℚ) (w tpb : ℕ) :
    Framed (k1Write f w tpb) := by
  intro c e i h
  unfold k1Write at h
  by_cases hin : c ≤ i ∧ i < e
  · exact hin
  · simp [hin] at h

theorem k2Write_framed (f : ℕ → ℚ) (w tpb : ℕ) :
    Framed (k2Write f w tpb) := by
  intro c e i h
  unfold k2Write at h
  by_cases hin : c ≤ i ∧ i < e ∧ hitsK2 w tpb (e - c) (i - c)
  · exact ⟨hin.1, hin.2.1⟩
  · simp only [if_neg hin, ne_eq, not_true_eq_false] at h

theorem kernel1_phase (f : ℕ → ℚ) (n w trunk tpb : ℕ)
    (htr : 1 ≤ trunk) (htpb : 1 ≤ tpb) (i : ℕ) (hi : i < n) :
    applyChunks (k1Write f w tpb) (mortgageBounds1 n trunk) (fun _ => none) i =
      if i % trunk < w - 1 then none else some (rollingMean f w i) := by
  unfold mortgageBounds1
  rw [applyChunks_range' (k1Write f w tpb) (k1Write_framed f w tpb) trunk htr
    (pyRangeLen 0 n trunk) 0 n _ i (Nat.zero_le i) hi
    (by have := pyRangeLen_upper 0 n trunk htr; omega)
    (by intro h; have := pyRangeLen_last_lt 0 n trunk htr h; omega)]
  have hmod : i - (i / trunk) * trunk = i % trunk := by
    have h := Nat.div_add_mod i trunk
    have h2 : trunk * (i / trunk) = (i / trunk) * trunk := Nat.mul_comm _ _
    omega
  have hle : (i / trunk) * trunk ≤ i := Nat.div_mul_le_self i trunk
  have hlt : i < (i / trunk + 1) * trunk := by
    have := Nat.lt_div_mul_add (a := i) (b := trunk) (by omega)
    rw [Nat.succ_mul]
    omega
  simp only [Nat.sub_zero, Nat.zero_add]
  unfold k1Write
  have hguard : i / trunk * trunk ≤ i ∧ i < min ((i / trunk + 1) * trunk) n := by
    exact ⟨hle, by omega⟩
  rw [if_pos hguard, hmod]
  by_cases hinf : i % trunk < w - 1
  · rw [if_pos ((hitsInfLoop_iff w tpb _ htpb).mpr hinf), if_pos hinf]
    rfl
  · rw [if_neg (fun h => hinf ((hitsInfLoop_iff w tpb _ htpb).mp h))]
    have havg : hitsAvgLoop w tpb (min ((i / trunk + 1) * trunk) n - i / trunk * trunk)
        (i % trunk) := by
      rw [hitsAvgLoop_iff w tpb _ _ htpb]
      omega
    rw [if_pos havg, if_neg hinf]
    rw [chunkWindowAvg_eq_rollingMean f w _ _ (by omega)]
    rw [show i / trunk * trunk + i % trunk = i by omega]
    rfl

/-- C1 (amended): for an input column `in1` of length `n` and moving window
`w = average_window` with `1 ≤ w`, `2*w - 1 ≤ trunk_size`, `trunk_size ≤ n`,
and the kernels launched with `tpb ≥ w` threads per block, running `kernel1`
via `apply_chunks` over the boundaries `[0, trunk_size, 2*trunk_size, …, n]`
and then `kernel2` over `[0, w, w + trunk_size, w + 2*trunk_size, …, n]`
leaves `out[i] = (in1[i-w+1] + … + in1[i]) / w` for every `i ≥ w - 1` (the
reference `rolling(w).mean()` value) and `out[i] = np.inf` for `i < w - 1`.
The original claim's hypotheses (`w ≤ trunk_size ≤ n` only) are not enough:
see the counterexample. -/
theorem movingAverageGPU_eq_rollingRef (f : ℕ → ℚ) (n w trunk tpb : ℕ)
    (hw : 1 ≤ w) (h2w : 2 * w - 1 ≤ trunk) (_htn : trunk ≤ n) (htpb : w ≤ tpb)
    (i : ℕ) (hi : i < n) :
    movingAverageGPU f n w trunk tpb i = rollingRef f w i := by
  have htr : 1 ≤ trunk := by omega
  have htpb1 : 1 ≤ tpb := by omega
  unfold movingAverageGPU mortgageBounds2
  set out1 := applyChunks (k1Write f w tpb) (mortgageBounds1 n trunk) (fun _ => none)
    with hout1
  have hmid : ∀ j, j < n → out1 j =
      if j % trunk < w - 1 then none else some (rollingMean f w j) := by
    intro j hj
    rw [hout1]
    exact kernel1_phase f n w trunk tpb htr htpb1 j hj
  rcases Nat.eq_zero_or_pos (pyRangeLen w n trunk) with hK0 | hKpos
  · -- no middle boundaries: a single kernel2 chunk `[0, n)`; only possible
    -- when `n ≤ w`
    have hnw : n ≤ w := by
      by_contra h
      exact absurd (pyRangeLen_pos w n trunk htr (by omega)) (by omega)
    rw [hK0]
    simp only [List.range'_zero, List.nil_append]
    rw [applyChunks_head_chunk (k2Write f w tpb) (k2Write_framed f w tpb) 0 n []
      out1 i (by simp) (Nat.zero_le i) hi]
    unfold k2Write
    simp only [Nat.sub_zero]
    by_cases hge : w - 1 ≤ i
    · rw [if_pos ⟨Nat.zero_le i, hi,
        (hitsK2_iff w tpb n i hw htpb).mpr ⟨hge, by omega, hi⟩⟩]
      rw [chunkWindowAvg_eq_rollingMean f w 0 i (by omega)]
      unfold rollingRef
      rw [if_pos hge]
      simp
    · have hneg : ¬(0 ≤ i ∧ i < n ∧ hitsK2 w tpb n i) := by
        rintro ⟨-, -, h⟩
        exact hge ((hitsK2_iff w tpb n i hw htpb).mp h).1
      rw [if_neg hneg]
      simp only [Option.getD_none]
      rw [hmid i hi]
      unfold rollingRef
      rw [if_neg hge, if_pos (by have : i % trunk = i := Nat.mod_eq_of_lt (by omega); omega)]
  · obtain ⟨K', hK'⟩ : ∃ K', pyRangeLen w n trunk = K' + 1 :=
      ⟨pyRangeLen w n trunk - 1, by omega⟩
    have hKupper : n ≤ w + pyRangeLen w n trunk * trunk := pyRangeLen_upper w n trunk htr
    have hKlast : w + (pyRangeLen w n trunk - 1) * trunk < n :=
      pyRangeLen_last_lt w n trunk htr hKpos
    have hKlast' : w + K' * trunk < n := by
      rw [hK', Nat.add_sub_cancel] at hKlast
      exact hKlast
    have hshape : List.range' w (pyRangeLen w n trunk) trunk ++ [n] =
        w :: (List.range' (w + trunk) K' trunk ++ [n]) := by
      rw [hK', List.range'_succ, List.cons_append]
    have hchainTail :
        List.Chain' (· ≤ ·) (List.range' w (pyRangeLen w n trunk) trunk ++ [n]) := by
      apply chain_range'_append
      rw [hK', Nat.succ_mul]
      omega
    by_cases hiw : i < w
    · -- first kernel2 chunk `[0, w)`: only local index `w - 1` is rewritten
      rw [hshape]
      rw [applyChunks_head_chunk (k2Write f w tpb) (k2Write_framed f w tpb) 0 w _
        out1 i (by rw [← hshape]; exact hchainTail) (Nat.zero_le i) hiw]
      unfold k2Write
      simp only [Nat.sub_zero]
      by_cases hge : w - 1 ≤ i
      · rw [if_pos ⟨Nat.zero_le i, hiw,
          (hitsK2_iff w tpb w i hw htpb).mpr ⟨hge, by omega, hiw⟩⟩]
        rw [chunkWindowAvg_eq_rollingMean f w 0 i (by omega)]
        unfold rollingRef
        rw [if_pos hge]
        simp
      · have hneg : ¬(0 ≤ i ∧ i < w ∧ hitsK2 w tpb w i) := by
          rintro ⟨-, -, h⟩
          exact hge ((hitsK2_iff w tpb w i hw htpb).mp h).1
        rw [if_neg hneg]
        simp only [Option.getD_none]
        rw [hmid i hi]
        unfold rollingRef
        rw [if_neg hge, if_pos (by have : i % trunk = i := Nat.mod_eq_of_lt (by omega); omega)]
    · -- the chunk of `i` is `[w + q*trunk, min (w + (q+1)*trunk) n)` where
      -- `q = (i - w) / trunk`
      have hwi : w ≤ i := by omega
      rw [hshape]
      rw [applyChunks_drop_head (k2Write f w tpb) (k2Write_framed f w tpb) 0 w _
        out1 i hwi]
      rw [← hshape]
      rw [applyChunks_range' (k2Write f w tpb) (k2Write_framed f w tpb) trunk htr
        (pyRangeLen w n trunk) w n out1 i hwi hi hKupper (fun _ => hKlast)]
      have hdm : (i - w) / trunk * trunk + (i - w) % trunk = i - w := by
        have h := Nat.div_add_mod (i - w) trunk
        have h2 : trunk * ((i - w) / trunk) = (i - w) / trunk * trunk := Nat.mul_comm _ _
        omega
      have hsuc : ((i - w) / trunk + 1) * trunk = (i - w) / trunk * trunk + trunk :=
        Nat.succ_mul _ _
      have hck : w + (i - w) / trunk * trunk ≤ i := by omega
      have hek : i < w + ((i - w) / trunk + 1) * trunk := by
        have h := Nat.lt_div_mul_add (a := i - w) (b := trunk) (show 0 < trunk by omega)
        omega
      have hil : i - (w + (i - w) / trunk * trunk) = (i - w) % trunk := by omega
      unfold k2Write
      rw [hil]
      have hilt : i < min (w + ((i - w) / trunk + 1) * trunk) n := by omega
      have hstrunk :
          min (w + ((i - w) / trunk + 1) * trunk) n - (w + (i - w) / trunk * trunk)
            ≤ trunk := by
        omega
      by_cases hhit : w - 1 ≤ (i - w) % trunk ∧
          min (w + ((i - w) / trunk + 1) * trunk) n - (w + (i - w) / trunk * trunk)
            ≤ (i - w) % trunk + w
      · rw [if_pos ⟨hck, hilt,
          (hitsK2_iff w tpb _ _ hw htpb).mpr ⟨hhit.1, hhit.2, by omega⟩⟩]
        rw [chunkWindowAvg_eq_rollingMean f w _ _ (by omega)]
        rw [show w + (i - w) / trunk * trunk + (i - w) % trunk = i by omega]
        unfold rollingRef
        rw [if_pos (by omega)]
        simp
      · -- the chunk does not rewrite `i`; kernel1 already stored the correct
        -- value there because `i % trunk = w + (i - w) % trunk ≥ w - 1`
        have hneg : ¬(w + (i - w) / trunk * trunk ≤ i ∧
            i < min (w + ((i - w) / trunk + 1) * trunk) n ∧
            hitsK2 w tpb
              (min (w + ((i - w) / trunk + 1) * trunk) n - (w + (i - w) / trunk * trunk))
              ((i - w) % trunk)) := by
          rintro ⟨-, -, h⟩
          obtain ⟨h1, h2, -⟩ := (hitsK2_iff w tpb _ _ hw htpb).mp h
          exact hhit ⟨h1, h2⟩
        rw [if_neg hneg]
        simp only [Option.getD_none]
        rw [hmid i hi]
        have hwr : w + (i - w) % trunk < trunk := by
          rcases Nat.lt_or_ge ((i - w) % trunk) (w - 1) with hc | hc
          · omega
          · omega
        have hiexp : i = (w + (i - w) % trunk) + (i - w) / trunk * trunk := by omega
        have hmod : i % trunk = w + (i - w) % trunk := by
          have h3 := congrArg (fun z => z % trunk) hiexp
          simp only at h3
          rw [h3, Nat.add_mul_mod_self_right]
          exact Nat.mod_eq_of_lt hwr
        rw [if_neg (by omega)]
        unfold rollingRef
        rw [if_pos (by omega)]

/-- C1 (counterexample to the claim as stated): with `average_window = 2`,
`trunk_size = 2`, `n = 4` (which satisfy the claim's constraints
`1 ≤ w ≤ trunk_size ≤ n`) and the notebook's `tpb = 128`, the pipeline leaves
`out[2] = np.inf` even though `2 ≥ w - 1`, where the claim demands the moving
average `(in1[1] + in1[2]) / 2`: the index `2` opens a fresh kernel1 chunk, and
the kernel2 chunk `[2, 4)` of size `2 < 2*w - 1` only rewrites its last local
index, so the hole at global index `2` survives. -/
theorem movingAverageGPU_claim_counterexample :
    1 ≤ 2 ∧ 2 ≤ 2 ∧ 2 ≤ 4 ∧ 2 - 1 ≤ 2 ∧ 2 < 4 ∧
    movingAverageGPU (fun j => (j : ℚ)) 4 2 2 128 2 = none ∧
    rollingRef (fun j => (j : ℚ)) 2 2 ≠ none := by
  set_option maxRecDepth 4000 in decide

/-- C1 (witness): the amended theorem applied at `f = id`, `n = 8`, `w = 2`,
`trunk = 3`, `tpb = 2`, `i = 5`. -/
theorem movingAverageGPU_eq_rollingRef_witness :
    1 ≤ 2 ∧ 2 * 2 - 1 ≤ 3 ∧ 3 ≤ 8 ∧ 2 ≤ 2 ∧ 5 < 8 ∧
    movingAverageGPU (fun j => (j : ℚ)) 8 2 3 2 5 =
      rollingRef (fun j => (j : ℚ)) 2 5 :=
  ⟨by decide, by decide, by decide, by decide, by decide,
    movingAverageGPU_eq_rollingRef (fun j => (j : ℚ)) 8 2 3 2 (by decide) (by decide)
      (by decide) (by decide) 5 (by decide)⟩

/-! ### The doubling kernels of `notebooks_Apply_Operations_in_cuDF.ipynb`

`apply_rows` kernel:
```
def kernel(in1, out):
    for i, x in enumerate(in1):
        out[i] = x * 2.0
```
the kernel enumerates the whole slice it receives, so it writes every local
index of its chunk whatever chunking the library chooses.  `apply_chunks`
variant:
```
def kernel(in1, out):
    for i in range(cuda.threadIdx.x, in1.size, cuda.blockDim.x):
        out[i] = in1[i] * 2.0
```
-/

theorem hitsStride_iff (tpb s il : ℕ) (htpb : 1 ≤ tpb) :
    hitsStride tpb s il ↔ il < s := by
  constructor
  · rintro ⟨tid, _, k, _, _, h⟩; exact h
  · intro h
    refine ⟨il % tpb, Finset.mem_range.mpr (Nat.mod_lt _ (by omega)), il / tpb,
      Finset.mem_range.mpr (by have := Nat.div_le_self il tpb; omega), ?_, h⟩
    have := Nat.mod_add_div' il tpb
    omega

/-- If every chunk writes `g i` at every global index `i` it contains, the
fold over a covering boundary list produces `g i` everywhere. -/
theorem applyChunks_cover (Wv : ℕ → ℕ → ℕ → Option (Option ℚ))
    (hfr : Framed Wv) (g : ℕ → Option ℚ)
    (hW : ∀ c e i, c ≤ i → i < e → Wv c e i = some (g i)) :
    ∀ (l : List ℕ) (b0 : ℕ) (out : ℕ → Option ℚ) (i : ℕ),
      List.Chain' (· ≤ ·) (b0 :: l) → b0 ≤ i → i < (b0 :: l).getLastD 0 →
      applyChunks Wv (b0 :: l) out i = g i := by
  intro l
  induction l with
  | nil =>
    intro b0 out i _ hb0 hlast
    simp only [List.getLastD_cons, List.getLastD_nil] at hlast
    omega
  | cons b1 rest ih =>
    intro b0 out i hch hb0 hlast
    have hch' : List.Chain' (· ≤ ·) (b1 :: rest) := (List.chain'_cons.mp hch).2
    by_cases hib1 : i < b1
    · rw [applyChunks_head_chunk Wv hfr b0 b1 rest out i hch' hb0 hib1]
      rw [hW b0 b1 i hb0 hib1]
      rfl
    · rw [applyChunks_drop_head Wv hfr b0 b1 rest out i (by omega)]
      apply ih b1 out i hch' (by omega)
      simp only [List.getLastD_cons] at hlast ⊢
      exact hlast

theorem chain_head_le_getLastD (x : ℕ) :
    ∀ l : List ℕ, List.Chain' (· ≤ ·) (x :: l) → x ≤ (x :: l).getLastD 0 := by
  intro l
  induction l generalizing x with
  | nil => intro _; simp
  | cons y rest ih =>
    intro hch
    have h1 : x ≤ y := (List.chain'_cons.mp hch).1
    have h2 := ih y (List.chain'_cons.mp hch).2
    simp only [List.getLastD_cons] at h2 ⊢
    omega

/-- Indices at or beyond the final boundary are never written. -/
theorem applyChunks_ge_last (Wv : ℕ → ℕ → ℕ → Option (Option ℚ))
    (hfr : Framed Wv) :
    ∀ (l : List ℕ) (b0 : ℕ) (out : ℕ → Option ℚ) (i : ℕ),
      List.Chain' (· ≤ ·) (b0 :: l) → (b0 :: l).getLastD 0 ≤ i →
      applyChunks Wv (b0 :: l) out i = out i := by
  intro l
  induction l with
  | nil => intro b0 out i _ _; rfl
  | cons b1 rest ih =>
    intro b0 out i hch hlast
    have hch' : List.Chain' (· ≤ ·) (b1 :: rest) := (List.chain'_cons.mp hch).2
    have hble : b1 ≤ (b1 :: rest).getLastD 0 := chain_head_le_getLastD b1 rest hch'
    simp only [List.getLastD_cons] at hlast hble
    rw [applyChunks_drop_head Wv hfr b0 b1 rest out i (by omega)]
    apply ih b1 out i hch'
    simp only [List.getLastD_cons]
    omega

theorem rowsDoubleWrite_framed (f : ℕ → ℚ) : Framed (rowsDoubleWrite f) := by
  intro c e i h
  unfold rowsDoubleWrite at h
  by_cases hin : c ≤ i ∧ i < e
  · exact hin
  · simp [hin] at h

theorem stridedDoubleWrite_framed (f : ℕ → ℚ) (tpb : ℕ) :
    Framed (stridedDoubleWrite f tpb) := by
  intro c e i h
  unfold stridedDoubleWrite at h
  by_cases hin : c ≤ i ∧ i < e ∧ hitsStride tpb (e - c) (i - c)
  · exact ⟨hin.1, hin.2.1⟩
  · simp [hin] at h

/-- C2: the per-row doubling kernel dispatched with `apply_rows` (over any
chunking `0 = b₀ ≤ b₁ ≤ … ≤ b_m = n` the library picks) assigns
`out[i] = in1[i] * 2.0` at every index `i < n` and nothing else (indices the
chunks do not cover keep the buffer's initial contents, and the covering
boundary lists leave none); the thread-strided `apply_chunks` variant with
uniform chunk size `cs ≥ 1` and `tpb ≥ 1` threads per block does the same;
consequently `sum(out) = 2 * sum(in1)`. -/
theorem doublingKernels_correct (f : ℕ → ℚ) (n cs tpb : ℕ) (bs : List ℕ)
    (hch : List.Chain' (· ≤ ·) (0 :: bs)) (hlast : (0 :: bs).getLastD 0 = n)
    (hcs : 1 ≤ cs) (htpb : 1 ≤ tpb) :
    (∀ i, i < n → applyRowsDouble f (0 :: bs) i = some (f i * 2)) ∧
    (∀ i, i < n → applyChunksDouble f n cs tpb i = some (f i * 2)) ∧
    (∀ i, n ≤ i → applyRowsDouble f (0 :: bs) i = none ∧
      applyChunksDouble f n cs tpb i = none) ∧
    outColSum (applyRowsDouble f (0 :: bs)) n = 2 * ∑ i in Finset.range n, f i := by
  have hWrows : ∀ c e i, c ≤ i → i < e →
      rowsDoubleWrite f c e i = some (some (f i * 2)) := by
    intro c e i h1 h2
    unfold rowsDoubleWrite
    rw [if_pos ⟨h1, h2⟩, show c + (i - c) = i by omega]
  have hrows : ∀ i, i < n → applyRowsDouble f (0 :: bs) i = some (f i * 2) := by
    intro i hi
    unfold applyRowsDouble
    exact applyChunks_cover (rowsDoubleWrite f) (rowsDoubleWrite_framed f)
      (fun i => some (f i * 2)) hWrows bs 0 _ i hch (Nat.zero_le i) (by omega)
  refine ⟨hrows, ?_, ?_, ?_⟩
  · intro i hi
    have hM : 1 ≤ pyRangeLen 0 n cs := pyRangeLen_pos 0 n cs hcs (by omega)
    obtain ⟨M', hM'⟩ : ∃ M', pyRangeLen 0 n cs = M' + 1 :=
      ⟨pyRangeLen 0 n cs - 1, by omega⟩
    have hlt : (pyRangeLen 0 n cs - 1) * cs < n := by
      have := pyRangeLen_last_lt 0 n cs hcs hM
      omega
    have hshape : mortgageBounds1 n cs =
        0 :: (List.range' (0 + cs) M' cs ++ [n]) := by
      unfold mortgageBounds1
      rw [hM', List.range'_succ, List.cons_append]
    have hchain : List.Chain' (· ≤ ·) (List.range' 0 (pyRangeLen 0 n cs) cs ++ [n]) := by
      apply chain_range'_append
      rw [hM', Nat.succ_mul]
      rw [hM', Nat.add_sub_cancel] at hlt
      omega
    have hlastb : (List.range' 0 (pyRangeLen 0 n cs) cs ++ [n]).getLastD 0 = n := by
      rw [List.getLastD_concat]
    unfold applyChunksDouble
    have hWstr : ∀ c e j, c ≤ j → j < e →
        stridedDoubleWrite f tpb c e j = some (some (f j * 2)) := by
      intro c e j h1 h2
      unfold stridedDoubleWrite
      rw [if_pos ⟨h1, h2, (hitsStride_iff tpb (e - c) (j - c) htpb).mpr (by omega)⟩,
        show c + (j - c) = j by omega]
    rw [show mortgageBounds1 n cs =
        0 :: (List.range' (0 + cs) M' cs ++ [n]) from hshape]
    apply applyChunks_cover (stridedDoubleWrite f tpb) (stridedDoubleWrite_framed f tpb)
      (fun j => some (f j * 2)) hWstr _ 0 _ i
      (by rw [← List.cons_append, ← List.range'_succ, ← hM']; exact hchain)
      (Nat.zero_le i)
      (by rw [← List.cons_append, ← List.range'_succ, ← hM']
          unfold mortgageBounds1 at hshape
          rw [List.getLastD_concat]
          exact hi)
  · intro i hi
    constructor
    · unfold applyRowsDouble
      apply applyChunks_ge_last (rowsDoubleWrite f) (rowsDoubleWrite_framed f) bs 0 _ i hch
      rw [hlast]
      exact hi
    · unfold applyChunksDouble
      rcases Nat.eq_zero_or_pos n with hn0 | hn1
      · have hM0 : pyRangeLen 0 n cs = 0 := by
          subst hn0
          unfold pyRangeLen
          apply Nat.div_eq_of_lt
          omega
        unfold mortgageBounds1
        rw [hM0]
        rfl
      · have hM : 1 ≤ pyRangeLen 0 n cs := pyRangeLen_pos 0 n cs hcs (by omega)
        obtain ⟨M', hM'⟩ : ∃ M', pyRangeLen 0 n cs = M' + 1 :=
          ⟨pyRangeLen 0 n cs - 1, by omega⟩
        have hlt : (pyRangeLen 0 n cs - 1) * cs < n := by
          have := pyRangeLen_last_lt 0 n cs hcs hM
          omega
        have hchain : List.Chain' (· ≤ ·)
            (List.range' 0 (pyRangeLen 0 n cs) cs ++ [n]) := by
          apply chain_range'_append
          rw [hM', Nat.succ_mul]
          rw [hM', Nat.add_sub_cancel] at hlt
          omega
        have hshape : mortgageBounds1 n cs =
            0 :: (List.range' (0 + cs) M' cs ++ [n]) := by
          unfold mortgageBounds1
          rw [hM', List.range'_succ, List.cons_append]
        rw [hshape]
        apply applyChunks_ge_last (stridedDoubleWrite f tpb)
          (stridedDoubleWrite_framed f tpb) _ 0 _ i
          (by rw [← List.cons_append, ← List.range'_succ, ← hM']; exact hchain)
        rw [← List.cons_append, ← List.range'_succ, ← hM']
        unfold mortgageBounds1 at hshape
        rw [List.getLastD_concat]
        exact hi
  · unfold outColSum
    calc ∑ i in Finset.range n, (applyRowsDouble f (0 :: bs) i).getD 0
        = ∑ i in Finset.range n, f i * 2 := by
          apply Finset.sum_congr rfl
          intro i hi
          rw [hrows i (Finset.mem_range.mp hi)]
          rfl
      _ = 2 * ∑ i in Finset.range n, f i := by
          rw [← Finset.sum_mul, mul_comm]

/-- C2 (witness): the theorem applied at `f = id`, `n = 4`, boundary list
`[0, 2, 4]`, `cs = 2`, `tpb = 2`. -/
theorem doublingKernels_correct_witness :
    List.Chain' (· ≤ ·) (0 :: [2, 4]) ∧ ((0 : ℕ) :: [2, 4]).getLastD 0 = 4 ∧
    (1 : ℕ) ≤ 2 ∧
    ((∀ i, i < 4 → applyRowsDouble (fun j => (j : ℚ)) (0 :: [2, 4]) i =
        some ((i : ℚ) * 2)) ∧
      (∀ i, i < 4 → applyChunksDouble (fun j => (j : ℚ)) 4 2 2 i =
        some ((i : ℚ) * 2)) ∧
      (∀ i, 4 ≤ i → applyRowsDouble (fun j => (j : ℚ)) (0 :: [2, 4]) i = none ∧
        applyChunksDouble (fun j => (j : ℚ)) 4 2 2 i = none) ∧
      outColSum (applyRowsDouble (fun j => (j : ℚ)) (0 :: [2, 4])) 4 =
        2 * ∑ i in Finset.range 4, (i : ℚ)) :=
  ⟨by simp [List.chain'_cons], by decide, by decide,
    doublingKernels_correct (fun j => (j : ℚ)) 4 2 2 [2, 4]
      (by simp [List.chain'_cons]) (by decide) (by decide) (by decide)⟩

/-! ### Helper functions of the PCA notebook (`src/unnamed/part_000`)

```
def array_equal(a,b,threshold=2e-3,with_sign=True):
    a = to_nparray(a)
    b = to_nparray(b)
    if with_sign == False:
        a,b = np.abs(a),np.abs(b)
    error = mean_squared_error(a,b)
    res = error<threshold
    return res

def to_nparray(x):
    if isinstance(x,np.ndarray) or isinstance(x,pd.DataFrame):
        return np.array(x)
    elif isinstance(x,np.float64):
        return np.array([x])
    elif isinstance(x,cudf.DataFrame) or isinstance(x,cudf.Series):
        return x.to_pandas().values
    return x
```
Array-like inputs are modelled by their rational contents; a `np.float64`
scalar is a separate constructor that `to_nparray` wraps into a length-one
array.  The Python code rebinds its local names (`a = to_nparray(a)`) and
`np.abs` allocates a fresh array, so the caller's arguments are never
mutated; the Lean model is accordingly a pure function of the inputs. -/

/-- C4: `array_equal(a, b, threshold, with_sign)` returns `True` iff the mean
squared error of `to_nparray(a)` and `to_nparray(b)` — with the elementwise
absolute values substituted when `with_sign` is `False` — is strictly below
`threshold`; the default threshold is `2e-3`.  (The inputs are not modified:
the Python function only rebinds locals and `np.abs` returns a fresh array,
which the pure Lean model reflects.) -/
theorem array_equal_iff_mse_lt (a b : PyValue) (threshold : ℚ) (with_sign : Bool) :
    (array_equal a b threshold with_sign = true ↔
      mean_squared_error
        (if with_sign then to_nparray a else (to_nparray a).map (fun x => |x|))
        (if with_sign then to_nparray b else (to_nparray b).map (fun x => |x|))
        < threshold) ∧
    array_equal_default_threshold = 2 / 1000 := by
  constructor
  · unfold array_equal
    cases with_sign <;> simp
  · unfold array_equal_default_threshold
    norm_num

/-! ### The best-edge selection loop of `Weighted-Jaccard.ipynb`

```
bestEdge = 0
for i in range(len(df)):
    if df['jaccard_coeff'][i] > df['jaccard_coeff'][bestEdge]:
        bestEdge = i
```
-/

theorem bestEdgeLoop_invariant (get : ℕ → ℚ) :
    ∀ n : ℕ, 1 ≤ n →
      bestEdgeLoop get n < n ∧
      (∀ j, j < n → get j ≤ get (bestEdgeLoop get n)) ∧
      (∀ j, j < bestEdgeLoop get n → get j < get (bestEdgeLoop get n)) := by
  intro n
  induction n with
  | zero => omega
  | succ m ih =>
    intro _
    rcases Nat.eq_zero_or_pos m with hm | hm
    · subst hm
      have h0 : bestEdgeLoop get 1 = 0 := by
        show bestStep get (bestEdgeLoop get 0) 0 = 0
        unfold bestStep bestEdgeLoop
        simp
      rw [h0]
      refine ⟨by omega, ?_, by omega⟩
      intro j hj
      have hj0 : j = 0 := by omega
      subst hj0
      exact le_refl _
    · obtain ⟨hb, hmax, hfirst⟩ := ih hm
      have heq : bestEdgeLoop get (m + 1) = bestStep get (bestEdgeLoop get m) m := rfl
      by_cases hgt : get m > get (bestEdgeLoop get m)
      · have hstep : bestEdgeLoop get (m + 1) = m := by
          rw [heq]; unfold bestStep; rw [if_pos hgt]
        rw [hstep]
        refine ⟨by omega, ?_, ?_⟩
        · intro j hj
          rcases Nat.lt_or_ge j m with h | h
          · exact le_of_lt (lt_of_le_of_lt (hmax j h) hgt)
          · have hjm : j = m := by omega
            subst hjm
            exact le_refl _
        · intro j hj
          exact lt_of_le_of_lt (hmax j hj) hgt
      · have hstep : bestEdgeLoop get (m + 1) = bestEdgeLoop get m := by
          rw [heq]; unfold bestStep; rw [if_neg hgt]
        rw [hstep]
        refine ⟨by omega, ?_, hfirst⟩
        intro j hj
        rcases Nat.lt_or_ge j m with h | h
        · exact hmax j h
        · have hjm : j = m := by omega
          subst hjm
          exact le_of_not_lt hgt

/-- C5: for a non-empty `jaccard_coeff` column the loop terminates with
`bestEdge` equal to the smallest index attaining the column's maximum
(`bestEdge` is in bounds, its value is an upper bound of the column, and
every earlier entry is strictly smaller), so all the loop's and the
subsequent prints' accesses are within bounds; for an empty dataframe
`bestEdge` stays `0` and the subsequent access at index `0` is out of bounds
(`get? 0 = none`). -/
theorem bestEdge_first_argmax (xs : List ℚ) (hne : xs ≠ []) :
    (bestEdge xs < xs.length ∧
      (∀ j, j < xs.length → xs.getD j 0 ≤ xs.getD (bestEdge xs) 0) ∧
      (∀ j, j < bestEdge xs → xs.getD j 0 < xs.getD (bestEdge xs) 0)) ∧
    (bestEdge ([] : List ℚ) = 0 ∧ ([] : List ℚ).get? (bestEdge ([] : List ℚ)) = none) := by
  have hlen : 1 ≤ xs.length := by
    cases xs with
    | nil => exact absurd rfl hne
    | cons x xs' => simp
  obtain ⟨h1, h2, h3⟩ := bestEdgeLoop_invariant (fun i => xs.getD i 0) xs.length hlen
  exact ⟨⟨h1, h2, h3⟩, rfl, rfl⟩

/-- C5 (witness): the theorem applied to the two-element column `[1, 2]`. -/
theorem bestEdge_first_argmax_witness :
    ([ (1 : ℚ), 2 ] ≠ []) ∧
    ((bestEdge [(1 : ℚ), 2] < 2 ∧
      (∀ j, j < 2 → ([(1 : ℚ), 2]).getD j 0 ≤ ([(1 : ℚ), 2]).getD (bestEdge [(1 : ℚ), 2]) 0) ∧
      (∀ j, j < bestEdge [(1 : ℚ), 2] →
        ([(1 : ℚ), 2]).getD j 0 < ([(1 : ℚ), 2]).getD (bestEdge [(1 : ℚ), 2]) 0)) ∧
    (bestEdge ([] : List ℚ) = 0 ∧ ([] : List ℚ).get? (bestEdge ([] : List ℚ)) = none)) :=
  ⟨by simp, bestEdge_first_argmax [(1 : ℚ), 2] (by simp)⟩

/-! ### `load_data` of the PCA notebook and of `coordinate_descent_demo.ipynb`

PCA notebook:
```
def load_data(nrows, ncols, cached = 'data/mortgage.npy.gz'):
    if os.path.exists(cached):
        print('use mortgage data')
        with gzip.open(cached) as f:
            X = np.load(f)
        X = X[np.random.randint(0,X.shape[0]-1,nrows),:ncols]
    else:
        raise FileNotFoundError('Please download the required dataset or check the path')
    df = pd.DataFrame({'fea%d'%i:X[:,i] for i in range(X.shape[1])})
    return df
```
coordinate-descent notebook:
```
def load_data(nrows, ncols, cached = 'data/mortgage.npy.gz'):
    train_rows = int(nrows*0.8)
    if os.path.exists(cached):
        print('use mortgage data')
        with gzip.open(cached) as f:
            X = np.load(f)
        X = X[:,[i for i in range(X.shape[1]) if i!=4]]
        y = X[:,4:5]
        rindices = np.random.randint(0,X.shape[0]-1,nrows)
        X = X[rindices,:ncols]
        y = y[rindices]
        df_y_train = pd.DataFrame({'fea%d'%i:y[0:train_rows,i] for i in range(y.shape[1])})
        df_y_test = pd.DataFrame({'fea%d'%i:y[train_rows:,i] for i in range(y.shape[1])})
    else:
        print('use random data')
        X,y = make_regression(n_samples=nrows,n_features=ncols,n_informative=ncols, random_state=0)
        df_y_train = pd.DataFrame({'fea0':y[0:train_rows,]})
        df_y_test = pd.DataFrame({'fea0':y[train_rows:,]})
    df_X_train = pd.DataFrame({'fea%d'%i:X[0:train_rows,i] for i in range(X.shape[1])})
    df_X_test = pd.DataFrame({'fea%d'%i:X[train_rows:,i] for i in range(X.shape[1])})
    return df_X_train, df_X_test, df_y_train, df_y_test
```
A dataframe is modelled as its list of rows; the file contents and the
indices produced by `np.random.randint` (always `nrows` of them) are inputs
of the model, and the samples `make_regression` would generate likewise. -/

theorem train_rows_le (nrows : ℕ) : train_rows nrows ≤ nrows := by
  unfold train_rows
  calc nrows * 8 / 10 ≤ nrows * 10 / 10 :=
        Nat.div_le_div_right (Nat.mul_le_mul_left nrows (by omega))
    _ = nrows := Nat.mul_div_cancel nrows (by omega)

/-- C6: for every `nrows ≥ 0` and `ncols ≥ 1`, the coordinate-descent
`load_data` returns `X_train` with exactly `int(nrows*0.8)` rows, `X_test`
with the remaining `nrows - int(nrows*0.8)` rows, `X_train` preceding
`X_test` in the original sample order and the two together containing every
generated sample exactly once (their concatenation is the generated sample
list), and likewise for `y_train`/`y_test` — in both the mortgage branch
(where the sampled matrix has one row per element of `rindices`, so `nrows`
of them) and the `make_regression` branch. -/
theorem cdLoadData_split (b : Bool) (fileX : List (List ℚ)) (sampleIdxs : List ℕ)
    (genX : List (List ℚ)) (genY : List ℚ) (nrows ncols : ℕ)
    (_hncols : 1 ≤ ncols) (hgX : genX.length = nrows) (hgY : genY.length = nrows)
    (hidx : sampleIdxs.length = nrows) :
    ((cdLoadData b fileX sampleIdxs genX genY nrows ncols).2.1.length = train_rows nrows) ∧
    ((cdLoadData b fileX sampleIdxs genX genY nrows ncols).2.2.1.length =
      nrows - train_rows nrows) ∧
    ((cdLoadData b fileX sampleIdxs genX genY nrows ncols).2.1 ++
        (cdLoadData b fileX sampleIdxs genX genY nrows ncols).2.2.1 =
      if b then cdMortgageX fileX sampleIdxs ncols else genX) ∧
    ((cdLoadData b fileX sampleIdxs genX genY nrows ncols).2.2.2.1.length =
      train_rows nrows) ∧
    ((cdLoadData b fileX sampleIdxs genX genY nrows ncols).2.2.2.2.length =
      nrows - train_rows nrows) ∧
    ((cdLoadData b fileX sampleIdxs genX genY nrows ncols).2.2.2.1 ++
        (cdLoadData b fileX sampleIdxs genX genY nrows ncols).2.2.2.2 =
      if b then cdMortgageY fileX sampleIdxs else genY) := by
  have htr := train_rows_le nrows
  have hlX : (cdMortgageX fileX sampleIdxs ncols).length = nrows := by
    unfold cdMortgageX
    rw [List.length_map, hidx]
  have hlY : (cdMortgageY fileX sampleIdxs).length = nrows := by
    unfold cdMortgageY
    rw [List.length_map, hidx]
  cases b <;>
    simp only [cdLoadData, if_true, if_false, Bool.false_eq_true, ite_true, ite_false] <;>
    refine ⟨?_, ?_, List.take_append_drop _ _, ?_, ?_, List.take_append_drop _ _⟩ <;>
    simp [List.length_take, List.length_drop, hlX, hlY, hgX, hgY] <;>
    omega

/-- C6 (witness): the theorem applied to a three-sample generated dataset
(`nrows = 3`, `train_rows = 2`). -/
theorem cdLoadData_split_witness :
    (1 : ℕ) ≤ 1 ∧ ([[(1 : ℚ)], [2], [3]] : List (List ℚ)).length = 3 ∧
    ([(10 : ℚ), 20, 30] : List ℚ).length = 3 ∧ ([0, 1, 2] : List ℕ).length = 3 ∧
    ((cdLoadData false [] [0, 1, 2] [[(1 : ℚ)], [2], [3]] [(10 : ℚ), 20, 30] 3 1).2.1.length =
      train_rows 3 ∧
    (cdLoadData false [] [0, 1, 2] [[(1 : ℚ)], [2], [3]] [(10 : ℚ), 20, 30] 3 1).2.2.1.length =
      3 - train_rows 3 ∧
    ((cdLoadData false [] [0, 1, 2] [[(1 : ℚ)], [2], [3]] [(10 : ℚ), 20, 30] 3 1).2.1 ++
        (cdLoadData false [] [0, 1, 2] [[(1 : ℚ)], [2], [3]] [(10 : ℚ), 20, 30] 3 1).2.2.1 =
      if false then cdMortgageX [] [] 1 else [[(1 : ℚ)], [2], [3]]) ∧
    (cdLoadData false [] [0, 1, 2] [[(1 : ℚ)], [2], [3]] [(10 : ℚ), 20, 30] 3 1).2.2.2.1.length =
      train_rows 3 ∧
    (cdLoadData false [] [0, 1, 2] [[(1 : ℚ)], [2], [3]] [(10 : ℚ), 20, 30] 3 1).2.2.2.2.length =
      3 - train_rows 3 ∧
    ((cdLoadData false [] [0, 1, 2] [[(1 : ℚ)], [2], [3]] [(10 : ℚ), 20, 30] 3 1).2.2.2.1 ++
        (cdLoadData false [] [0, 1, 2] [[(1 : ℚ)], [2], [3]] [(10 : ℚ), 20, 30] 3 1).2.2.2.2 =
      if false then cdMortgageY [] [] else [(10 : ℚ), 20, 30])) := by
  refine ⟨by decide, by decide, by decide, by decide, ?_⟩
  exact cdLoadData_split false [] [0, 1, 2] [[(1 : ℚ)], [2], [3]] [(10 : ℚ), 20, 30] 3 1
    (by decide) (by decide) (by decide) (by decide)

/-- C3 (counterexample): the claim "no function defined in the repository
raises an exception of its own, and none substitutes fallback data when an
expected input is missing" is false: when the cached mortgage file is absent,
the PCA notebook's `load_data` raises `FileNotFoundError('Please download the
required dataset or check the path')`, and the coordinate-descent `load_data`
substitutes a `make_regression` dataset. -/
theorem errorHandling_claim_counterexample :
    pcaLoadData false [] [] 0 = Except.error pcaErrorMessage ∧
    (cdLoadData false [] [] [] [] 0 0).1 = DataSource.generatedRandom :=
  ⟨rfl, rfl⟩

/-- C3 (amended): the notebooks do perform custom error handling of their own:
with the cached dataset absent, the PCA `load_data` raises its
`FileNotFoundError`, and the coordinate-descent `load_data` falls back to
generated `make_regression` data; with the file present, neither does (the PCA
loader returns normally and the coordinate-descent loader uses the mortgage
file). -/
theorem errorHandling_amended (fileX : List (List ℚ)) (sampleIdxs : List ℕ)
    (genX : List (List ℚ)) (genY : List ℚ) (nrows ncols : ℕ) :
    (pcaLoadData false fileX sampleIdxs ncols = Except.error pcaErrorMessage) ∧
    (pcaLoadData true fileX sampleIdxs ncols =
      Except.ok (sampleIdxs.map fun r => (fileX.getD r []).take ncols)) ∧
    ((cdLoadData false fileX sampleIdxs genX genY nrows ncols).1 =
      DataSource.generatedRandom) ∧
    ((cdLoadData true fileX sampleIdxs genX genY nrows ncols).1 =
      DataSource.mortgageFile) :=
  ⟨rfl, rfl, rfl, rfl⟩

/-! ### File operations performed by the repository's code

The only file-touching statements in the four notebooks are:
* `cudf.read_csv('./data/karate-data.csv', names=..., delimiter='\t',
  dtype=[int32, int32])` in the weighted-Jaccard notebook;
* `os.path.exists('data/mortgage.npy.gz')` followed (only on success) by
  `gzip.open(...)`/`np.load(...)` in the two `load_data` helpers.
Each straight-line code path is modelled by the trace of file operations it
performs, in program order. -/

/-- C8: every file operation performed by the repository's code is a read (or
an existence check) of one of the two local files — the tab-delimited karate
CSV or the gzip-compressed NumPy mortgage array; no trace contains a write;
and the gzip path is opened only on the branch where `os.path.exists` has
just reported `true` (the open is immediately preceded by that check). -/
theorem fileOps_read_only (b b' : Bool) (op : FileOp) :
    (op ∈ pcaLoadDataTrace b ++ cdLoadDataTrace b' ++ jaccardTrace →
      op.isWrite = false ∧
      (op = FileOp.readCsv karatePath ∨ op = FileOp.openGzipRead mortgagePath ∨
        ∃ r, op = FileOp.pathExists mortgagePath r)) ∧
    (FileOp.openGzipRead mortgagePath ∈ pcaLoadDataTrace b →
      b = true ∧ pcaLoadDataTrace b =
        [FileOp.pathExists mortgagePath true, FileOp.openGzipRead mortgagePath]) ∧
    (FileOp.openGzipRead mortgagePath ∈ cdLoadDataTrace b' →
      b' = true ∧ cdLoadDataTrace b' =
        [FileOp.pathExists mortgagePath true, FileOp.openGzipRead mortgagePath]) := by
  refine ⟨?_, ?_, ?_⟩
  · intro hmem
    have hcases : op = FileOp.pathExists mortgagePath b ∨
        op = FileOp.openGzipRead mortgagePath ∨
        op = FileOp.pathExists mortgagePath b' ∨
        op = FileOp.readCsv karatePath := by
      simp only [pcaLoadDataTrace, cdLoadDataTrace, jaccardTrace, List.mem_append,
        List.mem_cons, List.mem_singleton] at hmem
      cases b <;> cases b' <;>
        simp only [if_true, if_false, Bool.false_eq_true, ite_true, ite_false,
          List.mem_singleton, List.mem_cons, List.not_mem_nil, or_false,
          false_or] at hmem <;>
        tauto
    rcases hcases with h | h | h | h <;> subst h
    · exact ⟨rfl, Or.inr (Or.inr ⟨b, rfl⟩)⟩
    · exact ⟨rfl, Or.inr (Or.inl rfl)⟩
    · exact ⟨rfl, Or.inr (Or.inr ⟨b', rfl⟩)⟩
    · exact ⟨rfl, Or.inl rfl⟩
  · intro hmem
    cases b
    · exfalso
      simp [pcaLoadDataTrace] at hmem
    · exact ⟨rfl, rfl⟩
  · intro hmem
    cases b'
    · exfalso
      simp [cdLoadDataTrace] at hmem
    · exact ⟨rfl, rfl⟩

/-- C8 (witness): the theorem applied at `b = b' = true` and the gzip-open
operation, discharging the membership hypotheses on the resulting traces. -/
theorem fileOps_read_only_witness :
    (FileOp.openGzipRead mortgagePath ∈
        pcaLoadDataTrace true ++ cdLoadDataTrace true ++ jaccardTrace →
      (FileOp.openGzipRead mortgagePath).isWrite = false ∧
      (FileOp.openGzipRead mortgagePath = FileOp.readCsv karatePath ∨
        FileOp.openGzipRead mortgagePath = FileOp.openGzipRead mortgagePath ∨
        ∃ r, FileOp.openGzipRead mortgagePath = FileOp.pathExists mortgagePath r)) ∧
    (FileOp.openGzipRead mortgagePath ∈ pcaLoadDataTrace true →
      true = true ∧ pcaLoadDataTrace true =
        [FileOp.pathExists mortgagePath true, FileOp.openGzipRead mortgagePath]) ∧
    (FileOp.openGzipRead mortgagePath ∈ cdLoadDataTrace true →
      true = true ∧ cdLoadDataTrace true =
        [FileOp.pathExists mortgagePath true, FileOp.openGzipRead mortgagePath]) :=
  fileOps_read_only true true (FileOp.openGzipRead mortgagePath)

/-! ### Vertex renumbering in `Weighted-Jaccard.ipynb`

```
gdf['src_id'] = gdf['src'] -1
gdf['dst_id'] = gdf['dst'] -1
```
The columns were read with `dtype int32`, so the subtraction is int32
arithmetic: it wraps at the type's minimum. -/

theorem wrap32_eq_self (z : ℤ) (h1 : -2147483648 ≤ z) (h2 : z < 2147483648) :
    wrap32 z = z := by
  unfold wrap32
  omega

/-- C7 (counterexample): on an int32 column containing the value `-2^31`
(admissible for the `dtype='int32'` the CSV is read with), the renumbering
cell wraps: `src_id` holds `2^31 - 1`, not `src - 1 = -2^31 - 1`, so
"`src_id` equals `src - 1` for every row" fails. -/
theorem renumber_claim_counterexample :
    (renumberVertices [-2147483648] []).2.2.1 = [(2147483647 : ℤ)] ∧
    (2147483647 : ℤ) ≠ -2147483648 - 1 := by
  constructor
  · rfl
  · decide

/-- C7 (amended): after the renumbering cell, the original columns `src` and
`dst` are unchanged, and for every row whose value `v` lies strictly above
the int32 minimum (as all 1-based karate-club vertex ids do), `src_id = src - 1`
and `dst_id = dst - 1`; at `v = -2^31` the int32 subtraction wraps to
`2^31 - 1` instead. -/
theorem renumber_ids (src dst : List ℤ)
    (hsrc : ∀ v ∈ src, -2147483648 < v ∧ v < 2147483648)
    (hdst : ∀ v ∈ dst, -2147483648 < v ∧ v < 2147483648) :
    (renumberVertices src dst).1 = src ∧
    (renumberVertices src dst).2.1 = dst ∧
    (renumberVertices src dst).2.2.1 = src.map (fun v => v - 1) ∧
    (renumberVertices src dst).2.2.2 = dst.map (fun v => v - 1) := by
  refine ⟨rfl, rfl, ?_, ?_⟩
  · apply List.map_congr_left
    intro v hv
    exact wrap32_eq_self (v - 1) (by have := (hsrc v hv).1; omega)
      (by have := (hsrc v hv).2; omega)
  · apply List.map_congr_left
    intro v hv
    exact wrap32_eq_self (v - 1) (by have := (hdst v hv).1; omega)
      (by have := (hdst v hv).2; omega)

/-- C7 (witness): the theorem applied to the first two karate-club edges. -/
theorem renumber_ids_witness :
    (∀ v ∈ [(1 : ℤ), 2], -2147483648 < v ∧ v < 2147483648) ∧
    (∀ v ∈ [(2 : ℤ)], -2147483648 < v ∧ v < 2147483648) ∧
    ((renumberVertices [(1 : ℤ), 2] [(2 : ℤ)]).1 = [(1 : ℤ), 2] ∧
      (renumberVertices [(1 : ℤ), 2] [(2 : ℤ)]).2.1 = [(2 : ℤ)] ∧
      (renumberVertices [(1 : ℤ), 2] [(2 : ℤ)]).2.2.1 =
        ([(1 : ℤ), 2]).map (fun v => v - 1) ∧
      (renumberVertices [(1 : ℤ), 2] [(2 : ℤ)]).2.2.2 =
        ([(2 : ℤ)]).map (fun v => v - 1)) :=
  ⟨by decide, by decide,
    renumber_ids [(1 : ℤ), 2] [(2 : ℤ)] (by decide) (by decide)⟩

/-! ### Work partitioning inside the repository's kernels (claim C9)

The thread-strided loop `for i in range(cuda.threadIdx.x, in1.size,
cuda.blockDim.x)` of the doubling kernel (and of kernel1/kernel2) explicitly
divides the chunk's rows among the `tpb` parallel lanes of a block. -/

/-- C9 (counterexample): the claim that "no repository-defined function
partitions work among parallel execution lanes" is false: in a chunk of size
2 with `tpb = 2`, lane 0 of the strided doubling kernel writes exactly row 0
and lane 1 writes exactly row 1 — the rows are partitioned between the
lanes. -/
theorem lanePartition_claim_counterexample :
    laneWrites 0 2 2 0 ∧ laneWrites 1 2 2 1 ∧
    ¬ laneWrites 0 2 2 1 ∧ ¬ laneWrites 1 2 2 0 := by
  decide

/-- C9 (amended): the notebooks' host-side code is straight-line and creates
no threads, locks or cancellation of its own, but the numba-CUDA kernels the
repository defines do partition work among parallel execution lanes: in every
chunk of size `s` dispatched with `tpb ≥ 1` threads per block, each local
row index `il < s` is written by exactly one lane, namely `tid = il % tpb`. -/
theorem kernel_lane_partition (s tpb il : ℕ) (htpb : 1 ≤ tpb) (hil : il < s) :
    ∃! tid, laneWrites tid tpb s il := by
  refine ⟨il % tpb, ⟨Nat.mod_lt _ (by omega), il / tpb,
    Finset.mem_range.mpr (by have := Nat.div_le_self il tpb; omega), ?_, hil⟩, ?_⟩
  · have := Nat.mod_add_div' il tpb
    omega
  · rintro tid ⟨htid, k, -, heq, -⟩
    have h1 : il % tpb = (tid + k * tpb) % tpb := by rw [← heq]
    rw [Nat.add_mul_mod_self_right, Nat.mod_eq_of_lt htid] at h1
    omega

/-- C9 (witness): the partition statement at `s = 3`, `tpb = 2`, `il = 2`
(lane 0 handles row 2). -/
theorem kernel_lane_partition_witness :
    (1 : ℕ) ≤ 2 ∧ 2 < 3 ∧ ∃! tid, laneWrites tid 2 3 2 :=
  ⟨by decide, by decide, kernel_lane_partition 3 2 2 (by decide) (by decide)⟩

end Notebooks

